import Mathlib

/-!
Verification of the backfill engine in `ddl/backfilling.go`.

Keys (`kv.Key`, opaque ordered byte strings) are modelled as lists of
naturals compared lexicographically, exactly as `bytes.Compare` does.
Worker goroutines, channels and the surrounding storage layer are
modelled by explicit argument passing: a run of `waitTaskResults` is a
function of the arrival order of the results, a snapshot is the list of
keys it contains, and so on.  Each definition mirrors one function of
the source file.
-/

namespace Backfill

/-- A key is a byte string; bytes are naturals (byte range is irrelevant
to the ordering claims). -/
abbrev Key := List Nat

/-- `bytes.Compare` / `kv.Key.Cmp`: lexicographic comparison. -/
def keyCmp : Key → Key → Ordering
  | [], [] => Ordering.eq
  | [], _ :: _ => Ordering.lt
  | _ :: _, [] => Ordering.gt
  | a :: as, b :: bs =>
    if a < b then Ordering.lt
    else if b < a then Ordering.gt
    else keyCmp as bs

/-- `kv.Key.Next`: the smallest key strictly greater than `k`, obtained
by appending a zero byte. -/
def keyNext (k : Key) : Key := k ++ [0]

/-- Carry-propagating byte increment on the reversed key, as in
`kv.Key.PrefixNext`: returns `none` when the increment overflows out of
the string. -/
def pnRev : List Nat → Option (List Nat)
  | [] => none
  | b :: rest =>
    let b' := (b + 1) % 256
    if b' ≠ 0 then some (b' :: rest)
    else (pnRev rest).map (fun r => 0 :: r)

/-- `kv.Key.PrefixNext`: increment the last byte with carry; if every
byte overflows, the original key with a zero byte appended is returned. -/
def prefixNext (k : Key) : Key :=
  match pnRev k.reverse with
  | some r => r.reverse
  | none => k ++ [0]

/-- Errors surfaced by the pipeline; `notExist` stands for
`kv.ErrNotExist` and `invalidSplitRegionRanges` for
`dbterror.ErrInvalidSplitRegionRanges`; other errors are `generic`. -/
inductive BFError where
  | notExist
  | invalidSplitRegionRanges
  | generic (code : Nat)
deriving DecidableEq, Repr

/-! ### Done-task keeper (`doneTaskKeeper`) -/

/-- `doneTaskKeeper`: collapses out-of-order task completions into a
single monotone next key.  The Go `map[int]kv.Key` is modelled as an
association list with overwrite-on-insert. -/
structure doneTaskKeeper where
  doneTaskNextKey : List (Nat × Key)
  current : Nat
  nextKey : Key
deriving DecidableEq, Repr

/-- Delete a key from the association-list map (`delete(m, i)`). -/
def eraseMap (m : List (Nat × Key)) (i : Nat) : List (Nat × Key) :=
  m.filter (fun p => p.1 ≠ i)

/-- Insert with overwrite (`m[i] = v`). -/
def insertMap (m : List (Nat × Key)) (i : Nat) (v : Key) : List (Nat × Key) :=
  (i, v) :: eraseMap m i

/-- The drain loop inside `updateNextKey`: while the map holds an entry
for `current`, consume it.  The Go loop terminates because every
iteration deletes one map entry; the fuel argument makes the recursion
structural, and any fuel exceeding the map size yields the loop's
behaviour (the wrapper passes `length + 1`). -/
def drainLoopFuel : Nat → List (Nat × Key) → Nat → Key → List (Nat × Key) × Nat × Key
  | 0, m, cur, key => (m, cur, key)
  | fuel + 1, m, cur, key =>
    match List.lookup cur m with
    | some nKey => drainLoopFuel fuel (eraseMap m cur) (cur + 1) nKey
    | none => (m, cur, key)

/-- `newDoneTaskKeeper(start)`. -/
def newDoneTaskKeeper (start : Key) : doneTaskKeeper :=
  { doneTaskNextKey := [], current := 0, nextKey := start }

/-- `doneTaskKeeper.updateNextKey(doneTaskID, next)`: if the id is the
current one, advance `current`, set `nextKey`, and drain queued
successors; otherwise stash `next` in the map. -/
def updateNextKey (n : doneTaskKeeper) (doneTaskID : Nat) (next : Key) : doneTaskKeeper :=
  if doneTaskID = n.current then
    let r := drainLoopFuel (n.doneTaskNextKey.length + 1) n.doneTaskNextKey (n.current + 1) next
    { doneTaskNextKey := r.1, current := r.2.1, nextKey := r.2.2 }
  else
    { n with doneTaskNextKey := insertMap n.doneTaskNextKey doneTaskID next }

/-- Feed the keeper a sequence of completions, id `i` carrying key `k i`. -/
def runKeeper (k : Nat → Key) (start : Key) (seq : List Nat) : doneTaskKeeper :=
  seq.foldl (fun kp i => updateNextKey kp i (k i)) (newDoneTaskKeeper start)

/-! ### Results, `waitTaskResults` and `sendTasksAndWait` -/

/-- `backfillResult`: what a worker sends back for one task. -/
structure backfillResult where
  taskID : Nat
  addedCount : Nat
  scanCount : Nat
  nextKey : Key
  err : Option BFError
deriving DecidableEq, Repr

/-- The observable outcome of a run of `waitTaskResults`: the keeper's
final next key, the added-count accumulator, the first error, and the
loop indices at which `scheduler.adjustWorkerSize()` was invoked. -/
structure waitOut where
  key : Key
  addedCount : Nat
  firstErr : Option BFError
  adjusts : List Nat
deriving DecidableEq, Repr

/-- The result-collection loop of `waitTaskResults`, as a function of
the arrival order of the results.  The claims under verification posit
that every dispatched task produces a result, so the drain of the task
channel removes nothing and the loop reads exactly the arrival list.
`ws` is `scheduler.workerSize()`; the Go guard `i%scheduler.workerSize()*4 == 0`
parses as `(i % ws) * 4 == 0`.  On an errored result the keeper is not
updated and only `firstErr` is recorded. -/
def waitLoop (ws : Nat) : doneTaskKeeper → Nat → Option BFError → Nat →
    List backfillResult → waitOut
  | kp, added, ferr, _, [] => ⟨kp.nextKey, added, ferr, []⟩
  | kp, added, ferr, i, r :: rest =>
    match r.err with
    | some e =>
      let ferr' := match ferr with
        | none => some e
        | some e0 => some e0
      waitLoop ws kp added ferr' (i + 1) rest
    | none =>
      let kp' := updateNextKey kp r.taskID r.nextKey
      let out := waitLoop ws kp' (added + r.addedCount) ferr (i + 1) rest
      if (i % ws) * 4 = 0 then { out with adjusts := i :: out.adjusts } else out

/-- `waitTaskResults(scheduler, batchTasks, totalAddedCount)`: the keeper
starts at `batchTasks[0].startKey`. -/
def waitTaskResultsModel (ws : Nat) (startKey : Key) (arrivals : List backfillResult) :
    waitOut :=
  waitLoop ws (newDoneTaskKeeper startKey) 0 none 0 arrivals

/-- The loop indices at which `adjustWorkerSize` fires, computed
directly from the arrival list (proved equal to `waitLoop`'s trace). -/
def adjustsSpec (ws : Nat) : Nat → List backfillResult → List Nat
  | _, [] => []
  | i, r :: rest =>
    match r.err with
    | some _ => adjustsSpec ws (i + 1) rest
    | none =>
      if (i % ws) * 4 = 0 then i :: adjustsSpec ws (i + 1) rest
      else adjustsSpec ws (i + 1) rest

/-- The task ids of the successful results, in arrival order. -/
def successIds (l : List backfillResult) : List Nat :=
  (l.filter (fun r => r.err.isNone)).map (fun r => r.taskID)

/-- The observable outcome of `sendTasksAndWait`: the arguments of the
`reorgInfo.UpdateReorgMeta` calls it performs, in order, and its return
value. -/
structure sendOut where
  updateCalls : List Key
  ret : Option BFError
deriving DecidableEq, Repr

/-- `sendTasksAndWait`: run `waitTaskResults`; if it returned no error,
replace the error with the post-wait `isReorgRunnable` check
(`runnableErr`); then call `UpdateReorgMeta` with the returned next key
(its own error `err1` is only logged), and finally return the error if
any.  Task sending is channel traffic and is not observable here. -/
def sendTasksAndWaitModel (ws : Nat) (startKey : Key)
    (arrivals : List backfillResult) (runnableErr : Option BFError) : sendOut :=
  let w := waitTaskResultsModel ws startKey arrivals
  let err := match w.firstErr with
    | none => runnableErr
    | some e => some e
  match err with
  | some e => ⟨[w.key], some e⟩
  | none => ⟨[w.key], none⟩

/-! ### Ranges and batch tasks -/

/-- `kv.KeyRange`: half-open `[StartKey, EndKey)`. -/
structure KeyRange where
  StartKey : Key
  EndKey : Key
deriving DecidableEq, Repr

/-- `reorgBackfillTask` (the fields the pipeline claims are about;
`bfJob`, table handle, job id, query and priority are carried opaquely
by the source and are inert to these claims). -/
structure reorgBackfillTask where
  id : Nat
  startKey : Key
  endKey : Key
  endInclude : Bool
deriving DecidableEq, Repr

/-- `reorgBackfillTask.excludedEndKey()`. -/
def excludedEndKey (r : reorgBackfillTask) : Key :=
  if r.endInclude then keyNext r.endKey else r.endKey

/-- `backfillTaskContext` (warning maps and `finishTS` are dropped: they
feed only the reorg context and metrics). -/
structure backfillTaskContext where
  nextKey : Key
  done : Bool
  addedCount : Nat
  scanCount : Nat
deriving DecidableEq, Repr

/-- `mergeBackfillCtxToResult(taskCtx, result)`. -/
def mergeBackfillCtxToResult (taskCtx : backfillTaskContext) (result : backfillResult) :
    backfillResult :=
  { result with
    nextKey := taskCtx.nextKey,
    addedCount := result.addedCount + taskCtx.addedCount,
    scanCount := result.scanCount + taskCtx.scanCount }

/-- The key `endK` produced by the `getRangeEndKey` call in
`getBatchTasks`; on error the Go variable holds the nil key and the
declared end key is kept. `getEnd` abstracts
`getRangeEndKey(jobCtx, store, priority, prefix, startKey, endKey)`,
`none` meaning an error return. -/
def tightEndK (getEnd : Key → Key → Option Key) (kr : KeyRange) : Key :=
  match getEnd kr.StartKey kr.EndKey with
  | none => []
  | some ek => ek

/-- One iteration of the task-building loop in `getBatchTasks` for the
`i`-th range (`lastIdx = len(kvRanges) - 1`). -/
def mkTask (pre : Key) (getEnd : Key → Key → Option Key) (lastIdx i : Nat)
    (kr : KeyRange) : reorgBackfillTask :=
  let endKey1 : Key := match getEnd kr.StartKey kr.EndKey with
    | none => kr.EndKey
    | some ek => ek
  let startKey1 : Key := if kr.StartKey = [] then pre else kr.StartKey
  let endKey2 : Key := if endKey1 = [] then prefixNext pre else endKey1
  { id := i,
    startKey := startKey1,
    endKey := endKey2,
    endInclude :=
      decide (keyCmp (tightEndK getEnd kr) kr.EndKey ≠ Ordering.eq) || decide (i = lastIdx) }

/-- The loop of `getBatchTasks`: build a task per range, stopping once
`len(batchTasks) >= batch` right after an append. -/
def goTasks (pre : Key) (getEnd : Key → Key → Option Key) (lastIdx batch : Nat) :
    Nat → List KeyRange → List reorgBackfillTask
  | _, [] => []
  | i, kr :: rest =>
    let t := mkTask pre getEnd lastIdx i kr
    if batch ≤ i + 1 then [t] else t :: goTasks pre getEnd lastIdx batch (i + 1) rest

/-- `getBatchTasks(t, reorgInfo, kvRanges, batch)`; `pre` is the record
(or temp-index) prefix of the physical table. -/
def getBatchTasksModel (pre : Key) (getEnd : Key → Key → Option Key)
    (krs : List KeyRange) (batch : Nat) : List reorgBackfillTask :=
  goTasks pre getEnd (krs.length - 1) batch 0 krs

/-! ### `splitTableRanges` -/

/-- The store as `splitTableRanges` sees it: either it is not a
`tikv.Storage`, or it is and `SplitRegionRanges` behaves as the given
function of `(startKey, endKey, limit)`. -/
inductive StoreModel where
  | plain
  | tikvStore (split : Key → Key → Nat → Except BFError (List KeyRange))

/-- `splitTableRanges(t, store, startKey, endKey, limit)`. -/
def splitTableRangesModel (store : StoreModel) (startKey endKey : Key) (limit : Nat) :
    Except BFError (List KeyRange) :=
  let kvRange : KeyRange := ⟨startKey, endKey⟩
  match store with
  | .plain => .ok [kvRange]
  | .tikvStore split =>
    match split startKey endKey limit with
    | .error e => .error e
    | .ok [] => .error BFError.invalidSplitRegionRanges
    | .ok (r :: rs) => .ok (r :: rs)

/-! ### `iterateSnapshotKeys` -/

/-- Result of `kv.NextUntil(it, util.RowKeyPrefixFilter(it.Key()))`:
either the iterator advanced past the current row (remaining entries
`rest`), or an error was returned. -/
inductive AdvanceOutcome where
  | ok (rest : List (Key × Key))
  | err (e : BFError)

/-- The handle-decoding step at the top of the iteration body:
`tablecodec.DecodeRowKey` runs only when the prefix denotes record keys. -/
def decodeStep (isRecord : Bool) (dec : Key → Except BFError Nat) (key : Key) :
    Except BFError (Option Nat) :=
  if isRecord then
    match dec key with
    | .error e => .error e
    | .ok h => .ok (some h)
  else .ok none

/-- The iteration loop of `iterateSnapshotKeys` over the snapshot
iterator's remaining `(key, value)` entries.  `fn` is the record
callback, `adv` the row-skipping advance.  The Go loop has no bound;
`fuel` only makes the recursion structural and `none` marks exhausted
fuel. -/
def iterLoop (pre : Key) (isRecord : Bool) (dec : Key → Except BFError Nat)
    (fn : Option Nat → Key → Key → Bool × Option BFError)
    (adv : Key → List (Key × Key) → AdvanceOutcome) :
    Nat → List (Key × Key) → Option (Except BFError Unit)
  | _, [] => some (Except.ok ())
  | 0, _ :: _ => none
  | fuel + 1, (key, val) :: rest =>
    if List.isPrefixOf pre key = false then some (Except.ok ())
    else
      match decodeStep isRecord dec key with
      | .error e => some (Except.error e)
      | .ok h =>
        match fn h key val with
        | (_, some e) => some (Except.error e)
        | (false, none) => some (Except.ok ())
        | (true, none) =>
          match adv key rest with
          | .ok rest' => iterLoop pre isRecord dec fn adv fuel rest'
          | .err e =>
            if e = BFError.notExist then some (Except.ok ())
            else some (Except.error e)

/-- `iterateSnapshotKeys(ctx, store, priority, keyPrefix, version,
startKey, endKey, fn)`: choose the first key and the exclusive upper
bound, open the snapshot (`snap first upper` lists its entries in that
window, ascending) and run the loop. -/
def iterateSnapshotKeysModel (snap : Key → Key → List (Key × Key)) (pre : Key)
    (startKey endKey : Key) (isRecord : Bool) (dec : Key → Except BFError Nat)
    (fn : Option Nat → Key → Key → Bool × Option BFError)
    (adv : Key → List (Key × Key) → AdvanceOutcome) (fuel : Nat) :
    Option (Except BFError Unit) :=
  let firstKey := if startKey = [] then pre else startKey
  let upperBound := if endKey = [] then prefixNext pre else prefixNext endKey
  iterLoop pre isRecord dec fn adv fuel (snap firstKey upperBound)

/-! ### `getRangeEndKey` -/

/-- Non-strict key order. -/
def keyLe (a b : Key) : Prop := keyCmp a b ≠ Ordering.gt

instance keyLeDecidable (a b : Key) : Decidable (keyLe a b) :=
  inferInstanceAs (Decidable (keyCmp a b ≠ Ordering.gt))

/-- Larger of two keys. -/
def keyMax (a b : Key) : Key := if keyCmp a b = Ordering.lt then b else a

/-- Fold step accumulating the maximum key seen so far. -/
def maxStep (acc : Option Key) (x : Key) : Option Key :=
  match acc with
  | none => some x
  | some a => some (keyMax a x)

/-- The key at which `snap.IterReverse(ub)` is positioned: the largest
snapshot key strictly below `ub`, or `none` when the reverse iterator is
invalid. -/
def maxBelow (snap : List Key) (ub : Key) : Option Key :=
  (snap.filter (fun x => keyCmp x ub = Ordering.lt)).foldl maxStep none

/-- `getRangeEndKey(ctx, store, priority, keyPrefix, startKey, endKey)`:
reverse-iterate from `endKey.Next()`; if the iterator is invalid or its
key lacks the prefix, or the key is below `startKey`, return `startKey`,
else the key. -/
def getRangeEndKeyModel (snap : List Key) (pre startKey endKey : Key) : Key :=
  match maxBelow snap (keyNext endKey) with
  | none => startKey
  | some m =>
    if List.isPrefixOf pre m = false then startKey
    else if keyCmp m startKey = Ordering.lt then startKey
    else m

/-! ### `handleBackfillTask` -/

/-- Environment behaviour of one iteration of the batch loop in
`handleBackfillTask`: the `isReorgRunnable` check fails (`runErr`), or
`BackfillData` fails (`bfErr`), or the batch commits with context `c`
(`ok`), in which case `leaseErr = some e` records a failing
`updateLease` publish afterwards (distributed mode only, and only when
the loop continues) and `leaseErr = none` covers both a successful
publish and no publish being due. -/
inductive BatchStep where
  | runErr (e : BFError)
  | bfErr (e : BFError)
  | ok (c : backfillTaskContext) (leaseErr : Option BFError)
deriving DecidableEq, Repr

/-- The batch loop of `handleBackfillTask`, threading the cumulative
result exactly as the source does (merge on success, return on error,
break on `done`).  `none` means the supplied environment trace ran out
before the loop returned. -/
def handleLoop (isDist : Bool) : backfillResult → List BatchStep → Option backfillResult
  | _, [] => none
  | res, step :: rest =>
    match step with
    | .runErr e => some { res with err := some e }
    | .bfErr e => some { res with err := some e }
    | .ok c leaseE =>
      let res' := mergeBackfillCtxToResult c res
      if c.done then some res'
      else
        match isDist, leaseE with
        | true, some e => some { res' with err := some e }
        | _, _ => handleLoop isDist res' rest

/-- `handleBackfillTask(d, task, bf)`: the initial result carries the
task's id and start key and zero counts. -/
def handleBackfillTaskModel (isDist : Bool) (taskID : Nat) (startKey : Key)
    (steps : List BatchStep) : Option backfillResult :=
  handleLoop isDist
    { taskID := taskID, addedCount := 0, scanCount := 0, nextKey := startKey, err := none }
    steps

/-- The batch contexts that committed before `handleBackfillTask`
returned, in order. -/
def committedCtxs (isDist : Bool) : List BatchStep → List backfillTaskContext
  | [] => []
  | .runErr _ :: _ => []
  | .bfErr _ :: _ => []
  | .ok c leaseE :: rest =>
    if c.done then [c]
    else
      match isDist, leaseE with
      | true, some _ => [c]
      | _, _ => c :: committedCtxs isDist rest

/-- The next key of the last committed batch, or a default when none
committed. -/
def lastNextKey (dflt : Key) (cs : List backfillTaskContext) : Key :=
  match cs.getLast? with
  | none => dflt
  | some c => c.nextKey

/-! ### Keeper invariant -/

lemma lookup_eraseMap_self (m : List (Nat × Key)) (i : Nat) :
    List.lookup i (eraseMap m i) = none := by
  induction m with
  | nil => rfl
  | cons p t ih =>
    obtain ⟨a, v⟩ := p
    by_cases h : a = i
    · simpa [eraseMap, List.filter_cons, h] using ih
    · have hba : (i == a) = false := beq_eq_false_iff_ne.mpr (Ne.symm h)
      simpa [eraseMap, List.filter_cons, h, List.lookup, hba] using ih

lemma lookup_eraseMap_ne (m : List (Nat × Key)) (i j : Nat) (h : j ≠ i) :
    List.lookup j (eraseMap m i) = List.lookup j m := by
  induction m with
  | nil => rfl
  | cons p t ih =>
    obtain ⟨a, v⟩ := p
    by_cases ha : a = i
    · subst ha
      have hba : (j == a) = false := beq_eq_false_iff_ne.mpr h
      simpa [eraseMap, List.filter_cons, List.lookup, hba] using ih
    · by_cases hja : j = a
      · subst hja
        have hbt : (j == j) = true := beq_self_eq_true j
        simp [eraseMap, List.filter_cons, ha, List.lookup, hbt]
      · have hba : (j == a) = false := beq_eq_false_iff_ne.mpr hja
        simpa [eraseMap, List.filter_cons, ha, List.lookup, hba] using ih

lemma length_eraseMap_lt (m : List (Nat × Key)) (i : Nat) (v : Key)
    (h : List.lookup i m = some v) : (eraseMap m i).length < m.length := by
  induction m with
  | nil => simp [List.lookup] at h
  | cons p t ih =>
    obtain ⟨a, w⟩ := p
    by_cases ha : a = i
    · subst ha
      have hle : (eraseMap t a).length ≤ t.length := List.length_filter_le _ _
      have he : eraseMap ((a, w) :: t) a = eraseMap t a := by
        simp [eraseMap, List.filter_cons]
      rw [he]
      simp only [List.length_cons]
      omega
    · have hba : (i == a) = false := beq_eq_false_iff_ne.mpr (Ne.symm ha)
      have h' : List.lookup i t = some v := by
        simpa [List.lookup, hba] using h
      have hlt := ih h'
      have he : eraseMap ((a, w) :: t) i = (a, w) :: eraseMap t i := by
        simp [eraseMap, List.filter_cons, ha]
      rw [he]
      simp only [List.length_cons]
      omega

/-- Invariant of the keeper after it has observed the distinct ids in
`obs`, id `i` carrying key `k i`, starting from `start`. -/
def keeperInv (k : Nat → Key) (start : Key) (obs : List Nat) (kp : doneTaskKeeper) : Prop :=
  (∀ i, i < kp.current → i ∈ obs) ∧
  kp.current ∉ obs ∧
  (∀ i, List.lookup i kp.doneTaskNextKey =
    if i ∈ obs ∧ kp.current < i then some (k i) else none) ∧
  kp.nextKey = if kp.current = 0 then start else k (kp.current - 1)

lemma keeperInv_new (k : Nat → Key) (start : Key) :
    keeperInv k start [] (newDoneTaskKeeper start) := by
  refine ⟨fun i hi => by simp [newDoneTaskKeeper] at hi, by simp [newDoneTaskKeeper],
    fun i => by simp [newDoneTaskKeeper, List.lookup], by simp [newDoneTaskKeeper]⟩

lemma drain_spec (k : Nat → Key) (O : List Nat) :
    ∀ (fuel : Nat) (m : List (Nat × Key)) (cur : Nat) (key : Key),
      m.length < fuel →
      (∀ i, List.lookup i m = if i ∈ O ∧ cur ≤ i then some (k i) else none) →
      cur ≤ (drainLoopFuel fuel m cur key).2.1 ∧
      (∀ i, cur ≤ i → i < (drainLoopFuel fuel m cur key).2.1 → i ∈ O) ∧
      (drainLoopFuel fuel m cur key).2.1 ∉ O ∧
      (drainLoopFuel fuel m cur key).2.2 =
        (if (drainLoopFuel fuel m cur key).2.1 = cur then key
         else k ((drainLoopFuel fuel m cur key).2.1 - 1)) ∧
      (∀ i, List.lookup i (drainLoopFuel fuel m cur key).1 =
        if i ∈ O ∧ (drainLoopFuel fuel m cur key).2.1 ≤ i then some (k i) else none) := by
  intro fuel
  induction fuel with
  | zero => intro m cur key hlen _; omega
  | succ fuel ih =>
    intro m cur key hlen hmap
    cases hcur : List.lookup cur m with
    | none =>
      have hres : drainLoopFuel (fuel + 1) m cur key = (m, cur, key) := by
        simp [drainLoopFuel, hcur]
      have hnot : cur ∉ O := by
        have := hmap cur
        rw [hcur] at this
        by_contra hc
        simp [hc] at this
      rw [hres]
      exact ⟨le_refl _, fun i h1 h2 => absurd (lt_of_le_of_lt h1 h2) (lt_irrefl _),
        hnot, by simp, hmap⟩
    | some v =>
      have hcin : cur ∈ O ∧ v = k cur := by
        have := hmap cur
        rw [hcur] at this
        by_cases hc : cur ∈ O
        · simp [hc] at this
          exact ⟨hc, this⟩
        · simp [hc] at this
      have hres : drainLoopFuel (fuel + 1) m cur key =
          drainLoopFuel fuel (eraseMap m cur) (cur + 1) v := by
        simp [drainLoopFuel, hcur]
      have hlen' : (eraseMap m cur).length < fuel := by
        have := length_eraseMap_lt m cur v hcur
        omega
      have hmap' : ∀ i, List.lookup i (eraseMap m cur) =
          if i ∈ O ∧ cur + 1 ≤ i then some (k i) else none := by
        intro i
        by_cases hi : i = cur
        · subst hi
          rw [lookup_eraseMap_self]
          have : ¬ (i ∈ O ∧ i + 1 ≤ i) := by omega
          simp only [this, if_false]
        · rw [lookup_eraseMap_ne m cur i hi, hmap i]
          by_cases hio : i ∈ O
          · by_cases hci : cur ≤ i
            · have : cur + 1 ≤ i := by omega
              simp [hio, hci, this]
            · have : ¬ cur + 1 ≤ i := by omega
              simp [hio, hci, this]
          · simp [hio]
      obtain ⟨a1, a2, a3, a4, a5⟩ := ih (eraseMap m cur) (cur + 1) v hlen' hmap'
      rw [hres]
      refine ⟨by omega, ?_, a3, ?_, a5⟩
      · intro i h1 h2
        by_cases hi : i = cur
        · subst hi; exact hcin.1
        · exact a2 i (by omega) h2
      · rw [a4]
        have hne : (drainLoopFuel fuel (eraseMap m cur) (cur + 1) v).2.1 ≠ cur := by omega
        by_cases he : (drainLoopFuel fuel (eraseMap m cur) (cur + 1) v).2.1 = cur + 1
        · rw [if_pos he, if_neg hne, he, hcin.2]
          simp
        · rw [if_neg he, if_neg hne]

lemma updateNextKey_inv {k : Nat → Key} {start : Key} {obs : List Nat}
    {kp : doneTaskKeeper} {j : Nat}
    (hin : keeperInv k start obs kp) (hj : j ∉ obs) :
    keeperInv k start (obs ++ [j]) (updateNextKey kp j (k j)) := by
  obtain ⟨mp, c, nk⟩ := kp
  obtain ⟨h1, h2, h3, h4⟩ := hin
  replace h1 : ∀ i, i < c → i ∈ obs := h1
  replace h2 : c ∉ obs := h2
  replace h3 : ∀ i, List.lookup i mp = if i ∈ obs ∧ c < i then some (k i) else none := h3
  replace h4 : nk = if c = 0 then start else k (c - 1) := h4
  have hjc : c ≤ j := by
    by_contra hc
    exact hj (h1 j (by omega))
  by_cases hcur : j = c
  · subst hcur
    have hmap' : ∀ i, List.lookup i mp =
        if i ∈ obs ++ [j] ∧ j + 1 ≤ i then some (k i) else none := by
      intro i
      rw [h3 i]
      by_cases hio : i ∈ obs
      · by_cases hlt : j < i
        · have m1 : i ∈ obs ++ [j] := List.mem_append_left _ hio
          have m2 : j + 1 ≤ i := hlt
          rw [if_pos ⟨hio, hlt⟩, if_pos ⟨m1, m2⟩]
        · have m2 : ¬ (j + 1 ≤ i) := by omega
          rw [if_neg (by tauto), if_neg (by tauto)]
      · by_cases hij : i = j
        · subst hij
          have m2 : ¬ (i + 1 ≤ i) := by omega
          rw [if_neg (by tauto), if_neg (by tauto)]
        · have m1 : i ∉ obs ++ [j] := by simp [List.mem_append, hio, hij]
          rw [if_neg (by tauto), if_neg (by tauto)]
    obtain ⟨a1, a2, a3, a4, a5⟩ :=
      drain_spec k (obs ++ [j]) (mp.length + 1) mp (j + 1) (k j) (by omega) hmap'
    have hres : updateNextKey ⟨mp, j, nk⟩ j (k j) =
        ⟨(drainLoopFuel (mp.length + 1) mp (j + 1) (k j)).1,
         (drainLoopFuel (mp.length + 1) mp (j + 1) (k j)).2.1,
         (drainLoopFuel (mp.length + 1) mp (j + 1) (k j)).2.2⟩ := by
      simp [updateNextKey]
    rw [hres]
    set r := drainLoopFuel (mp.length + 1) mp (j + 1) (k j) with hrdef
    refine ⟨?_, a3, ?_, ?_⟩
    · intro i hi
      by_cases hij : i < j
      · exact List.mem_append_left _ (h1 i hij)
      · by_cases hij2 : i = j
        · exact List.mem_append_right _ (by simp [hij2])
        · exact a2 i (by omega) hi
    · intro i
      rw [a5 i]
      by_cases hio : i ∈ obs ++ [j]
      · by_cases hle : r.2.1 ≤ i
        · have hlt : r.2.1 < i := by
            rcases eq_or_lt_of_le hle with he | hl
            · exact absurd (he ▸ hio) a3
            · exact hl
          rw [if_pos ⟨hio, hle⟩, if_pos ⟨hio, hlt⟩]
        · rw [if_neg (by tauto), if_neg (fun hcon => hle (le_of_lt hcon.2))]
      · rw [if_neg (by tauto), if_neg (by tauto)]
    · rw [a4]
      have hne0 : r.2.1 ≠ 0 := by omega
      by_cases he : r.2.1 = j + 1
      · rw [if_pos he, if_neg hne0, he]
        simp
      · rw [if_neg he, if_neg hne0]
  · have hjgt : c < j := by omega
    have hres : updateNextKey ⟨mp, c, nk⟩ j (k j) =
        ⟨insertMap mp j (k j), c, nk⟩ := by
      simp [updateNextKey, hcur]
    rw [hres]
    refine ⟨?_, ?_, ?_, ?_⟩
    · intro i hi
      exact List.mem_append_left _ (h1 i hi)
    · intro hcmem
      rcases List.mem_append.mp hcmem with hmem | hmem
      · exact h2 hmem
      · simp at hmem
        omega
    · intro i
      show List.lookup i ((j, k j) :: eraseMap mp j) = _
      by_cases hij : i = j
      · subst hij
        have m1 : i ∈ obs ++ [i] := List.mem_append_right _ (by simp)
        rw [if_pos ⟨m1, hjgt⟩]
        simp [List.lookup]
      · have hbf : (i == j) = false := beq_eq_false_iff_ne.mpr hij
        have hstep : List.lookup i ((j, k j) :: eraseMap mp j) = List.lookup i mp := by
          simp [List.lookup, hbf, lookup_eraseMap_ne mp j i hij]
        rw [hstep, h3 i]
        by_cases hio : i ∈ obs
        · have m1 : i ∈ obs ++ [j] := List.mem_append_left _ hio
          by_cases hci : c < i
          · rw [if_pos ⟨hio, hci⟩, if_pos ⟨m1, hci⟩]
          · rw [if_neg (by tauto), if_neg (by tauto)]
        · have m1 : i ∉ obs ++ [j] := by simp [List.mem_append, hio, hij]
          rw [if_neg (by tauto), if_neg (by tauto)]
    · exact h4

lemma foldKeeper_inv {k : Nat → Key} {start : Key} :
    ∀ (seq : List Nat) (obs : List Nat) (kp : doneTaskKeeper),
      keeperInv k start obs kp → (∀ i ∈ seq, i ∉ obs) → seq.Nodup →
      keeperInv k start (obs ++ seq)
        (seq.foldl (fun kp i => updateNextKey kp i (k i)) kp) := by
  intro seq
  induction seq with
  | nil => intro obs kp hinv _ _; simpa using hinv
  | cons a t ih =>
    intro obs kp hinv hfresh hnd
    have ha : a ∉ obs := hfresh a (by simp)
    have hstep := updateNextKey_inv hinv ha
    have hfresh' : ∀ i ∈ t, i ∉ obs ++ [a] := by
      intro i hi
      simp only [List.mem_append, List.mem_singleton]
      push_neg
      refine ⟨hfresh i (by simp [hi]), ?_⟩
      intro he
      subst he
      exact (List.nodup_cons.mp hnd).1 hi
    have := ih (obs ++ [a]) _ hstep hfresh' (List.nodup_cons.mp hnd).2
    simpa [List.append_assoc] using this

lemma runKeeper_inv (k : Nat → Key) (start : Key) {seq : List Nat} (hnd : seq.Nodup) :
    keeperInv k start seq (runKeeper k start seq) := by
  have := foldKeeper_inv seq [] (newDoneTaskKeeper start) (keeperInv_new k start)
    (by simp) hnd
  simpa [runKeeper] using this

/-- The keeper's next key after observing the distinct ids of `seq` is
determined by the least unobserved id `c`. -/
lemma runKeeper_nextKey_eq (k : Nat → Key) (start : Key) {seq : List Nat}
    (hnd : seq.Nodup) (c : Nat) (h1 : ∀ i, i < c → i ∈ seq) (h2 : c ∉ seq) :
    (runKeeper k start seq).nextKey = if c = 0 then start else k (c - 1) := by
  obtain ⟨a1, a2, a3, a4⟩ := runKeeper_inv k start hnd
  have hceq : (runKeeper k start seq).current = c := by
    by_contra hne
    rcases Nat.lt_or_ge (runKeeper k start seq).current c with h | h
    · exact a2 (h1 _ h)
    · have : c < (runKeeper k start seq).current := by omega
      exact h2 (a1 c this)
  rw [a4, hceq]

/-- C1: feeding `doneTaskKeeper.updateNextKey` any sequence of distinct
ids, id `i` carrying key `k i`, yields: `nextKey = start` while id 0 is
unobserved; `nextKey = k j` once `j` is the largest id such that all of
`0..j` have been observed; and `nextKey = k (n-1)` after a full
permutation of `0..n-1`. -/
theorem C1_doneTaskKeeper_permutation (k : Nat → Key) (start : Key) (seq : List Nat)
    (hnd : seq.Nodup) :
    ((0 : Nat) ∉ seq → (runKeeper k start seq).nextKey = start) ∧
    (∀ j, (∀ i, i ≤ j → i ∈ seq) → (j + 1) ∉ seq →
      (runKeeper k start seq).nextKey = k j) ∧
    (∀ n, 0 < n → (∀ i, i ∈ seq ↔ i < n) →
      (runKeeper k start seq).nextKey = k (n - 1)) := by
  refine ⟨?_, ?_, ?_⟩
  · intro h0
    have := runKeeper_nextKey_eq k start hnd 0
      (fun i hi => absurd hi (Nat.not_lt_zero i)) h0
    simpa using this
  · intro j hall hnot
    have h1 : ∀ i, i < j + 1 → i ∈ seq := fun i hi => hall i (by omega)
    have := runKeeper_nextKey_eq k start hnd (j + 1) h1 hnot
    simpa using this
  · intro n hn hiff
    have h1 : ∀ i, i < n → i ∈ seq := fun i hi => (hiff i).mpr hi
    have h2 : n ∉ seq := fun hc => by have := (hiff n).mp hc; omega
    have := runKeeper_nextKey_eq k start hnd n h1 h2
    rw [this, if_neg (by omega)]

/-- Witness for C1: the permutation 2, 0, 1 of 0..2 ends with the key of
id 2 as the keeper's next key. -/
theorem C1_doneTaskKeeper_permutation_witness :
    (∀ i, i ≤ 2 → i ∈ ([2, 0, 1] : List Nat)) ∧
    (runKeeper (fun i => [i]) [9] [2, 0, 1]).nextKey = [2] :=
  ⟨by decide,
   (C1_doneTaskKeeper_permutation (fun i => [i]) [9] [2, 0, 1] (by decide)).2.1 2
     (by decide) (by decide)⟩

/-! ### `waitTaskResults` lemmas -/

/-- The keeper state threaded by `waitLoop` is exactly a fold of
`updateNextKey` over the successful ids (errored results do not touch
the keeper). -/
lemma waitLoop_key (kk : Nat → Key) :
    ∀ (l : List backfillResult) (ws : Nat) (kp : doneTaskKeeper) (added : Nat)
      (ferr : Option BFError) (i : Nat),
      (∀ r ∈ l, r.err = none → r.nextKey = kk r.taskID) →
      (waitLoop ws kp added ferr i l).key =
        ((successIds l).foldl (fun kp' j => updateNextKey kp' j (kk j)) kp).nextKey := by
  intro l
  induction l with
  | nil => intro ws kp added ferr i _; rfl
  | cons r rest ih =>
    intro ws kp added ferr i h
    cases herr : r.err with
    | some e =>
      have hstep : waitLoop ws kp added ferr i (r :: rest) =
          waitLoop ws kp added
            (match ferr with | none => some e | some e0 => some e0) (i + 1) rest := by
        simp [waitLoop, herr]
      have hsid : successIds (r :: rest) = successIds rest := by
        simp [successIds, List.filter_cons, herr]
      rw [hstep, hsid]
      exact ih ws kp added _ (i + 1) (fun r' hr' => h r' (List.mem_cons_of_mem _ hr'))
    | none =>
      have hnk : r.nextKey = kk r.taskID := h r (by simp) herr
      have hstep : (waitLoop ws kp added ferr i (r :: rest)).key =
          (waitLoop ws (updateNextKey kp r.taskID r.nextKey)
            (added + r.addedCount) ferr (i + 1) rest).key := by
        by_cases hc : (i % ws) * 4 = 0
        · simp [waitLoop, herr, hc]
        · simp [waitLoop, herr, hc]
      have hsid : successIds (r :: rest) = r.taskID :: successIds rest := by
        simp [successIds, List.filter_cons, herr]
      rw [hstep, hnk, hsid]
      exact ih ws _ _ ferr (i + 1) (fun r' hr' => h r' (List.mem_cons_of_mem _ hr'))

/-- The adjust trace of `waitLoop` agrees with `adjustsSpec`. -/
lemma waitLoop_adjusts (ws : Nat) :
    ∀ (l : List backfillResult) (kp : doneTaskKeeper) (added : Nat)
      (ferr : Option BFError) (i : Nat),
      (waitLoop ws kp added ferr i l).adjusts = adjustsSpec ws i l := by
  intro l
  induction l with
  | nil => intros; rfl
  | cons r rest ih =>
    intro kp added ferr i
    cases herr : r.err with
    | some e => simp [waitLoop, adjustsSpec, herr, ih]
    | none =>
      by_cases hc : (i % ws) * 4 = 0
      · simp [waitLoop, adjustsSpec, herr, hc, ih]
      · simp [waitLoop, adjustsSpec, herr, hc, ih]

/-- Membership in the adjust trace: `j` is recorded exactly for the
successful result at loop index `j` with `(j % ws) * 4 = 0`. -/
lemma adjustsSpec_mem (ws : Nat) :
    ∀ (l : List backfillResult) (i0 j : Nat),
      j ∈ adjustsSpec ws i0 l ↔
        ∃ t r, l.get? t = some r ∧ r.err = none ∧ j = i0 + t ∧ (j % ws) * 4 = 0 := by
  intro l
  induction l with
  | nil => intro i0 j; simp [adjustsSpec]
  | cons r0 rest ih =>
    intro i0 j
    cases herr : r0.err with
    | some e =>
      rw [show adjustsSpec ws i0 (r0 :: rest) = adjustsSpec ws (i0 + 1) rest by
        simp [adjustsSpec, herr]]
      rw [ih (i0 + 1) j]
      constructor
      · rintro ⟨t, r, hget, hnone, hj, hm⟩
        exact ⟨t + 1, r, by simpa using hget, hnone, by omega, hm⟩
      · rintro ⟨t, r, hget, hnone, hj, hm⟩
        cases t with
        | zero =>
          exfalso
          simp at hget
          rw [← hget] at hnone
          rw [herr] at hnone
          exact Option.noConfusion hnone
        | succ t' =>
          exact ⟨t', r, by simpa using hget, hnone, by omega, hm⟩
    | none =>
      by_cases hc : (i0 % ws) * 4 = 0
      · rw [show adjustsSpec ws i0 (r0 :: rest) = i0 :: adjustsSpec ws (i0 + 1) rest by
          simp [adjustsSpec, herr, hc]]
        simp only [List.mem_cons]
        constructor
        · rintro (hj | hj)
          · exact ⟨0, r0, by simp, herr, by omega, by rw [hj]; exact hc⟩
          · obtain ⟨t, r, hget, hnone, hjeq, hm⟩ := (ih (i0 + 1) j).mp hj
            exact ⟨t + 1, r, by simpa using hget, hnone, by omega, hm⟩
        · rintro ⟨t, r, hget, hnone, hjeq, hm⟩
          cases t with
          | zero => left; omega
          | succ t' =>
            right
            exact (ih (i0 + 1) j).mpr ⟨t', r, by simpa using hget, hnone, by omega, hm⟩
      · rw [show adjustsSpec ws i0 (r0 :: rest) = adjustsSpec ws (i0 + 1) rest by
          simp [adjustsSpec, herr, hc]]
        rw [ih (i0 + 1) j]
        constructor
        · rintro ⟨t, r, hget, hnone, hjeq, hm⟩
          exact ⟨t + 1, r, by simpa using hget, hnone, by omega, hm⟩
        · rintro ⟨t, r, hget, hnone, hjeq, hm⟩
          cases t with
          | zero =>
            exfalso
            have hji : j = i0 := by omega
            exact hc (hji ▸ hm)
          | succ t' =>
            exact ⟨t', r, by simpa using hget, hnone, by omega, hm⟩

/-- Pigeonhole: a duplicate-free list of `n` naturals below `n`
contains every natural below `n`. -/
lemma mem_of_bounded_nodup {l : List Nat} {n : Nat} (hnd : l.Nodup)
    (hb : ∀ x ∈ l, x < n) (hlen : l.length = n) : ∀ i, i < n → i ∈ l := by
  have hsub : l ⊆ List.range n := fun x hx => List.mem_range.mpr (hb x hx)
  have hsp : List.Subperm l (List.range n) := List.subperm_of_subset hnd hsub
  have hperm : List.Perm l (List.range n) :=
    hsp.perm_of_length_le (by rw [List.length_range, hlen])
  intro i hi
  exact hperm.mem_iff.mpr (List.mem_range.mpr hi)

/-- C2: when task `kfail` alone fails and the other tasks of `0..n-1`
succeed, `waitTaskResults` returns the key of task `kfail - 1` (the
batch's start key when `kfail = 0`), for every arrival order. -/
theorem C2_waitTaskResults_single_failure (ws n kfail : Nat) (kk : Nat → Key)
    (startKey : Key) (arrivals : List backfillResult) (e : BFError)
    (hk : kfail < n)
    (hnd : (arrivals.map (fun r => r.taskID)).Nodup)
    (hlen : arrivals.length = n)
    (hb : ∀ r ∈ arrivals, r.taskID < n)
    (hfail : ∀ r ∈ arrivals, r.taskID = kfail → r.err = some e)
    (hsucc : ∀ r ∈ arrivals, r.taskID ≠ kfail → r.err = none ∧ r.nextKey = kk r.taskID) :
    (waitTaskResultsModel ws startKey arrivals).key =
      if kfail = 0 then startKey else kk (kfail - 1) := by
  have hkey : ∀ r ∈ arrivals, r.err = none → r.nextKey = kk r.taskID := by
    intro r hr herr
    by_cases hid : r.taskID = kfail
    · have := hfail r hr hid
      rw [herr] at this
      exact Option.noConfusion this
    · exact (hsucc r hr hid).2
  have hkeyed : (waitTaskResultsModel ws startKey arrivals).key =
      (runKeeper kk startKey (successIds arrivals)).nextKey :=
    waitLoop_key kk arrivals ws _ 0 none 0 hkey
  have hsubl : List.Sublist (successIds arrivals) (arrivals.map (fun r => r.taskID)) := by
    unfold successIds
    exact (List.filter_sublist arrivals).map (fun r => r.taskID)
  have hndS : (successIds arrivals).Nodup := hnd.sublist hsubl
  have hmemS : ∀ i, i ∈ successIds arrivals ↔ (i < n ∧ i ≠ kfail) := by
    intro i
    constructor
    · intro hi
      simp only [successIds, List.mem_map, List.mem_filter] at hi
      obtain ⟨r, ⟨hrmem, hrnone⟩, hrid⟩ := hi
      have hrerr : r.err = none := Option.isNone_iff_eq_none.mp hrnone
      have hne : r.taskID ≠ kfail := by
        intro hcontr
        have := hfail r hrmem hcontr
        rw [hrerr] at this
        exact Option.noConfusion this
      exact ⟨hrid ▸ hb r hrmem, hrid ▸ hne⟩
    · rintro ⟨hlt, hne⟩
      have hall : ∀ x ∈ arrivals.map (fun r => r.taskID), x < n := by
        intro x hx
        obtain ⟨r, hrmem, hrx⟩ := List.mem_map.mp hx
        exact hrx ▸ hb r hrmem
      have hmem := mem_of_bounded_nodup hnd hall (by simp [hlen]) i hlt
      obtain ⟨r, hrmem, hrid⟩ := List.mem_map.mp hmem
      have herr : r.err = none := (hsucc r hrmem (by rw [hrid]; exact hne)).1
      simp only [successIds, List.mem_map, List.mem_filter]
      exact ⟨r, ⟨hrmem, by simp [herr]⟩, hrid⟩
  have h1 : ∀ i, i < kfail → i ∈ successIds arrivals := by
    intro i hi
    exact (hmemS i).mpr ⟨by omega, by omega⟩
  have h2 : kfail ∉ successIds arrivals := fun hcontr => ((hmemS kfail).mp hcontr).2 rfl
  rw [hkeyed]
  exact runKeeper_nextKey_eq kk startKey hndS kfail h1 h2

/-- Witness for C2: tasks 0..2, task 1 fails, results arrive in the
order 2, 1, 0; the returned key is the key of task 0. -/
theorem C2_waitTaskResults_single_failure_witness :
    (1 : Nat) < 3 ∧
    (waitTaskResultsModel 1 [7]
      [⟨2, 0, 0, [2], none⟩, ⟨1, 0, 0, [], some (BFError.generic 5)⟩,
       ⟨0, 0, 0, [0], none⟩]).key = [0] :=
  ⟨by decide, by
    have := C2_waitTaskResults_single_failure 1 3 1 (fun i => [i]) [7]
      [⟨2, 0, 0, [2], none⟩, ⟨1, 0, 0, [], some (BFError.generic 5)⟩,
       ⟨0, 0, 0, [0], none⟩]
      (BFError.generic 5) (by decide) (by decide) rfl (by decide) (by decide) (by decide)
    simpa using this⟩

/-- C3: `sendTasksAndWait` calls `UpdateReorgMeta` exactly once, with
the next key produced by `waitTaskResults`, on every return path
(wait error, failed post-wait runnability check, or success). -/
theorem C3_sendTasksAndWait_always_updates (ws : Nat) (startKey : Key)
    (arrivals : List backfillResult) (runnableErr : Option BFError) :
    (sendTasksAndWaitModel ws startKey arrivals runnableErr).updateCalls =
      [(waitTaskResultsModel ws startKey arrivals).key] := by
  simp only [sendTasksAndWaitModel]
  cases hfe : (waitTaskResultsModel ws startKey arrivals).firstErr <;>
    cases runnableErr <;> simp [hfe]

/-- C5 counterexample: with `workerSize = 2` and three successful
results, `adjustWorkerSize` fires at loop index 2, which is not a
multiple of `workerSize * 4 = 8`.  The Go guard `i%ws*4 == 0` parses as
`(i % ws) * 4 == 0`. -/
theorem C5_counterexample :
    2 ∈ (waitTaskResultsModel 2 [9]
      [⟨0, 0, 0, [0], none⟩, ⟨1, 0, 0, [1], none⟩, ⟨2, 0, 0, [2], none⟩]).adjusts ∧
    ¬ (2 % (2 * 4) = 0) := by
  decide

/-- C5 amended: during `waitTaskResults`, `adjustWorkerSize` is invoked
at loop index `j` exactly when the `j`-th arriving result is successful
and `j` is a multiple of `workerSize` (the guard `(j % ws) * 4 == 0`
degenerates to `j % ws == 0`). -/
theorem C5_adjustWorkerSize_cadence (ws : Nat) (startKey : Key)
    (arrivals : List backfillResult) (j : Nat) (_hws : 0 < ws) :
    j ∈ (waitTaskResultsModel ws startKey arrivals).adjusts ↔
      ∃ t r, arrivals.get? t = some r ∧ r.err = none ∧ j = t ∧ j % ws = 0 := by
  rw [waitTaskResultsModel, waitLoop_adjusts, adjustsSpec_mem]
  constructor
  · rintro ⟨t, r, hget, hnone, hj, hm⟩
    exact ⟨t, r, hget, hnone, by omega, by omega⟩
  · rintro ⟨t, r, hget, hnone, hj, hm⟩
    exact ⟨t, r, hget, hnone, by omega, by omega⟩

/-- Witness for the amended C5 at a concrete run. -/
theorem C5_adjustWorkerSize_cadence_witness :
    (0 : Nat) < 2 ∧
    (2 ∈ (waitTaskResultsModel 2 [9]
        [⟨0, 0, 0, [0], none⟩, ⟨1, 0, 0, [1], none⟩, ⟨2, 0, 0, [2], none⟩]).adjusts ↔
      ∃ t r, ([⟨0, 0, 0, [0], none⟩, ⟨1, 0, 0, [1], none⟩,
          ⟨2, 0, 0, [2], none⟩] : List backfillResult).get? t = some r ∧
        r.err = none ∧ 2 = t ∧ 2 % 2 = 0) :=
  ⟨by decide,
   C5_adjustWorkerSize_cadence 2 [9]
     [⟨0, 0, 0, [0], none⟩, ⟨1, 0, 0, [1], none⟩, ⟨2, 0, 0, [2], none⟩] 2 (by decide)⟩

/-! ### Order lemmas for `keyCmp` -/

lemma keyCmp_refl (a : Key) : keyCmp a a = Ordering.eq := by
  induction a with
  | nil => rfl
  | cons x t ih => simp [keyCmp, ih]

lemma keyCmp_eq_iff (a b : Key) : keyCmp a b = Ordering.eq ↔ a = b := by
  induction a generalizing b with
  | nil => cases b <;> simp [keyCmp]
  | cons x t ih =>
    cases b with
    | nil => simp [keyCmp]
    | cons y s =>
      by_cases hxy : x < y
      · simp only [keyCmp, if_pos hxy]
        constructor
        · intro h; exact absurd h (by decide)
        · intro h; injection h with h1 h2; omega
      · by_cases hyx : y < x
        · simp only [keyCmp, if_neg hxy, if_pos hyx]
          constructor
          · intro h; exact absurd h (by decide)
          · intro h; injection h with h1 h2; omega
        · have hxy' : x = y := by omega
          subst hxy'
          simp only [keyCmp, if_neg hxy, if_neg hyx]
          rw [ih s]
          simp

lemma keyCmp_swap (a b : Key) : keyCmp b a = (keyCmp a b).swap := by
  induction a generalizing b with
  | nil => cases b <;> rfl
  | cons x t ih =>
    cases b with
    | nil => rfl
    | cons y s =>
      by_cases hxy : x < y
      · have hyx : ¬ y < x := by omega
        simp [keyCmp, hxy, hyx, Ordering.swap]
      · by_cases hyx : y < x
        · simp [keyCmp, hxy, hyx, Ordering.swap]
        · simp [keyCmp, hxy, hyx, ih s]

lemma keyLt_trans : ∀ a b c : Key, keyCmp a b = Ordering.lt →
    keyCmp b c = Ordering.lt → keyCmp a c = Ordering.lt := by
  intro a
  induction a with
  | nil =>
    intro b c hab hbc
    cases b with
    | nil => exact absurd hab (by simp [keyCmp])
    | cons y s =>
      cases c with
      | nil => exact absurd hbc (by simp [keyCmp])
      | cons z u => simp [keyCmp]
  | cons x t ih =>
    intro b c hab hbc
    cases b with
    | nil => exact absurd hab (by simp [keyCmp])
    | cons y s =>
      cases c with
      | nil => exact absurd hbc (by simp [keyCmp])
      | cons z u =>
        by_cases hxy : x < y
        · by_cases hyz : y < z
          · have : x < z := by omega
            simp [keyCmp, this]
          · by_cases hzy : z < y
            · exact absurd hbc (by simp [keyCmp, hyz, hzy])
            · have : y = z := by omega
              subst this
              simp [keyCmp, hxy]
        · by_cases hyx : y < x
          · exact absurd hab (by simp [keyCmp, hxy, hyx])
          · have hxy' : x = y := by omega
            subst hxy'
            have hts : keyCmp t s = Ordering.lt := by
              simpa [keyCmp, hxy, hyx] using hab
            by_cases hyz : x < z
            · simp [keyCmp, hyz]
            · by_cases hzy : z < x
              · exact absurd hbc (by simp [keyCmp, hyz, hzy])
              · have : x = z := by omega
                subst this
                have hsu : keyCmp s u = Ordering.lt := by
                  simpa [keyCmp, hyz, hzy] using hbc
                simp [keyCmp, hyz, hzy, ih s u hts hsu]

lemma keyLe_refl (a : Key) : keyLe a a := by
  simp [keyLe, keyCmp_refl]

lemma keyLe_trans {a b c : Key} (h1 : keyLe a b) (h2 : keyLe b c) : keyLe a c := by
  unfold keyLe at *
  cases hab : keyCmp a b with
  | lt =>
    cases hbc : keyCmp b c with
    | lt => rw [keyLt_trans a b c hab hbc]; decide
    | eq =>
      have : b = c := (keyCmp_eq_iff b c).mp hbc
      subst this
      rw [hab]; decide
    | gt => exact absurd hbc h2
  | eq =>
    have : a = b := (keyCmp_eq_iff a b).mp hab
    subst this
    exact h2
  | gt => exact absurd hab h1

lemma keyLe_antisymm {a b : Key} (h1 : keyLe a b) (h2 : keyLe b a) : a = b := by
  unfold keyLe at *
  cases hab : keyCmp a b with
  | lt =>
    exfalso
    apply h2
    rw [keyCmp_swap a b, hab]
    rfl
  | eq => exact (keyCmp_eq_iff a b).mp hab
  | gt => exact absurd hab h1

/-- A key is strictly below `keyNext e` exactly when it is at most `e`:
appending a zero byte yields the least strictly larger key. -/
lemma keyCmp_lt_next_iff (k e : Key) :
    keyCmp k (keyNext e) = Ordering.lt ↔ keyLe k e := by
  induction e generalizing k with
  | nil =>
    cases k with
    | nil => simp [keyCmp, keyNext, keyLe, keyCmp_refl]
    | cons a t =>
      by_cases ha : 0 < a
      · have ha' : ¬ a < 0 := by omega
        simp [keyCmp, keyNext, keyLe, ha, ha']
      · have ha0 : a = 0 := by omega
        subst ha0
        cases t with
        | nil => simp [keyCmp, keyNext, keyLe]
        | cons b u => simp [keyCmp, keyNext, keyLe]
  | cons y s ih =>
    cases k with
    | nil => simp [keyCmp, keyNext, keyLe]
    | cons a t =>
      have hnext : keyNext (y :: s) = y :: (s ++ [0]) := by
        simp [keyNext]
      rw [hnext]
      by_cases hay : a < y
      · simp [keyCmp, keyLe, hay]
      · by_cases hya : y < a
        · simp [keyCmp, keyLe, hay, hya]
        · have : a = y := by omega
          subst this
          simp only [keyCmp, if_neg hay, if_neg hya]
          have hred : keyLe (a :: t) (a :: s) ↔ keyLe t s := by
            unfold keyLe
            simp [keyCmp, hay, hya]
          rw [hred]
          simpa [keyNext] using ih t

lemma keyCmp_lt_next (e : Key) : keyCmp e (keyNext e) = Ordering.lt :=
  (keyCmp_lt_next_iff e e).mpr (keyLe_refl e)

/-! ### C9: `excludedEndKey` -/

/-- C9: `excludedEndKey` is `endKey.Next()` on an inclusive boundary and
`endKey` otherwise, hence it exceeds `endKey` exactly when the boundary
is inclusive. -/
theorem C9_excludedEndKey (t : reorgBackfillTask) :
    (t.endInclude = true → excludedEndKey t = keyNext t.endKey) ∧
    (t.endInclude = false → excludedEndKey t = t.endKey) ∧
    (keyCmp t.endKey (excludedEndKey t) = Ordering.lt ↔ t.endInclude = true) := by
  refine ⟨fun h => by simp [excludedEndKey, h], fun h => by simp [excludedEndKey, h], ?_⟩
  cases hb : t.endInclude
  · simp [excludedEndKey, hb, keyCmp_refl]
  · simp [excludedEndKey, hb, keyCmp_lt_next]

/-- Witness for C9 at a concrete task. -/
theorem C9_excludedEndKey_witness :
    excludedEndKey ⟨0, [1], [2], true⟩ = keyNext [2] ∧
    (keyCmp [2] (excludedEndKey ⟨0, [1], [2], true⟩) = Ordering.lt ↔
      (⟨0, [1], [2], true⟩ : reorgBackfillTask).endInclude = true) :=
  ⟨(C9_excludedEndKey ⟨0, [1], [2], true⟩).1 rfl,
   (C9_excludedEndKey ⟨0, [1], [2], true⟩).2.2⟩

/-! ### C4: `getBatchTasks` and `endInclude` -/

/-- Every task produced by the `getBatchTasks` loop at position `j` is
built by `mkTask` from the `j`-th range. -/
lemma goTasks_get? (pre : Key) (getEnd : Key → Key → Option Key) (lastIdx batch : Nat) :
    ∀ (rem : List KeyRange) (i0 j : Nat) (t : reorgBackfillTask),
      (goTasks pre getEnd lastIdx batch i0 rem).get? j = some t →
      ∃ kr, rem.get? j = some kr ∧ t = mkTask pre getEnd lastIdx (i0 + j) kr := by
  intro rem
  induction rem with
  | nil => intro i0 j t ht; simp [goTasks] at ht
  | cons kr rest ih =>
    intro i0 j t ht
    by_cases hb : batch ≤ i0 + 1
    · rw [show goTasks pre getEnd lastIdx batch i0 (kr :: rest) =
          [mkTask pre getEnd lastIdx i0 kr] by simp [goTasks, hb]] at ht
      cases j with
      | zero =>
        simp at ht
        exact ⟨kr, by simp, by rw [← ht]; simp⟩
      | succ j' => simp at ht
    · rw [show goTasks pre getEnd lastIdx batch i0 (kr :: rest) =
          mkTask pre getEnd lastIdx i0 kr ::
            goTasks pre getEnd lastIdx batch (i0 + 1) rest by simp [goTasks, hb]] at ht
      cases j with
      | zero =>
        simp at ht
        exact ⟨kr, by simp, by rw [← ht]; simp⟩
      | succ j' =>
        simp only [List.get?_cons_succ] at ht
        obtain ⟨kr', hkr', hteq⟩ := ih (i0 + 1) j' t ht
        refine ⟨kr', by simpa using hkr', ?_⟩
        rw [hteq]
        congr 1
        omega

/-- C4 counterexample: first of two ranges, tightened end `[1,3]`
differs from the declared end `[1,5]` and the range is not final, yet
the constructed task has `endInclude = true` (the claim demands
`false`). -/
theorem C4_counterexample :
    keyCmp (tightEndK (fun _ _ => some [1, 3]) ⟨[1], [1, 5]⟩) ([1, 5] : Key) ≠ Ordering.eq ∧
    (0 : Nat) ≠ ([⟨[1], [1, 5]⟩, ⟨[1, 5], [1, 9]⟩] : List KeyRange).length - 1 ∧
    ((getBatchTasksModel [1] (fun _ _ => some [1, 3])
        [⟨[1], [1, 5]⟩, ⟨[1, 5], [1, 9]⟩] 1024).get? 0).map
      (fun t => t.endInclude) = some true := by
  decide

/-- C4 amended: a task's `endInclude` is `true` exactly when the
tightened end key differs from the range's declared `EndKey` or the
range is the final one; it is `false` when the tightened end equals the
declared end on a non-final range. -/
theorem C4_endInclude (pre : Key) (getEnd : Key → Key → Option Key)
    (krs : List KeyRange) (batch : Nat) (j : Nat) (t : reorgBackfillTask) (kr : KeyRange)
    (ht : (getBatchTasksModel pre getEnd krs batch).get? j = some t)
    (hkr : krs.get? j = some kr) :
    t.endInclude = true ↔
      (keyCmp (tightEndK getEnd kr) kr.EndKey ≠ Ordering.eq ∨ j = krs.length - 1) := by
  obtain ⟨kr', hkr', hteq⟩ := goTasks_get? pre getEnd (krs.length - 1) batch krs 0 j t ht
  rw [hkr] at hkr'
  injection hkr' with hkr''
  subst hkr''
  rw [hteq]
  simp [mkTask]

/-- Witness for the amended C4: the first task of the counterexample
batch satisfies the corrected characterisation. -/
theorem C4_endInclude_witness :
    ((getBatchTasksModel [1] (fun _ _ => some [1, 3])
        [⟨[1], [1, 5]⟩, ⟨[1, 5], [1, 9]⟩] 1024).get? 0 =
      some ⟨0, [1], [1, 3], true⟩) ∧
    ((⟨0, [1], [1, 3], true⟩ : reorgBackfillTask).endInclude = true ↔
      (keyCmp (tightEndK (fun _ _ => some [1, 3]) ⟨[1], [1, 5]⟩) (⟨[1], [1, 5]⟩ : KeyRange).EndKey ≠
          Ordering.eq ∨
        (0 : Nat) = ([⟨[1], [1, 5]⟩, ⟨[1, 5], [1, 9]⟩] : List KeyRange).length - 1)) :=
  ⟨by decide,
   C4_endInclude [1] (fun _ _ => some [1, 3]) [⟨[1], [1, 5]⟩, ⟨[1, 5], [1, 9]⟩] 1024 0
     ⟨0, [1], [1, 3], true⟩ ⟨[1], [1, 5]⟩ (by decide) (by decide)⟩

/-! ### C6: `splitTableRanges` -/

/-- C6: a store that is not a `tikv.Storage` yields the single input
range without error; a region-aware store whose region split returns an
empty list without error yields `ErrInvalidSplitRegionRanges`. -/
theorem C6_splitTableRanges (startKey endKey : Key) (limit : Nat)
    (split : Key → Key → Nat → Except BFError (List KeyRange)) :
    splitTableRangesModel StoreModel.plain startKey endKey limit =
      Except.ok [⟨startKey, endKey⟩] ∧
    (split startKey endKey limit = Except.ok [] →
      splitTableRangesModel (StoreModel.tikvStore split) startKey endKey limit =
        Except.error BFError.invalidSplitRegionRanges) := by
  refine ⟨rfl, fun hempty => ?_⟩
  simp [splitTableRangesModel, hempty]

/-- Witness for C6: a region-aware store producing no ranges. -/
theorem C6_splitTableRanges_witness :
    ((fun (_ _ : Key) (_ : Nat) => (Except.ok [] : Except BFError (List KeyRange))) [0] [1] 5 =
      Except.ok []) ∧
    splitTableRangesModel
        (StoreModel.tikvStore (fun _ _ _ => Except.ok [])) [0] [1] 5 =
      Except.error BFError.invalidSplitRegionRanges :=
  ⟨rfl, (C6_splitTableRanges [0] [1] 5 (fun _ _ _ => Except.ok [])).2 rfl⟩

/-! ### C10: `handleBackfillTask` on error -/

lemma lastNextKey_cons (d : Key) (c : backfillTaskContext)
    (l : List backfillTaskContext) :
    lastNextKey d (c :: l) = lastNextKey c.nextKey l := by
  cases l with
  | nil => rfl
  | cons c2 l2 =>
    unfold lastNextKey
    rw [List.getLast?_cons_cons]
    cases h : (c2 :: l2).getLast? with
    | none =>
      exfalso
      have h2 : (c2 :: l2) = ([] : List backfillTaskContext) :=
        List.getLast?_eq_none_iff.mp h
      exact List.noConfusion h2
    | some c3 => rfl

lemma handleLoop_err_spec (isDist : Bool) :
    ∀ (steps : List BatchStep) (res res' : backfillResult) (e : BFError),
      res.err = none →
      handleLoop isDist res steps = some res' → res'.err = some e →
      res'.nextKey = lastNextKey res.nextKey (committedCtxs isDist steps) ∧
      res'.addedCount =
        res.addedCount + ((committedCtxs isDist steps).map (fun c => c.addedCount)).sum ∧
      res'.scanCount =
        res.scanCount + ((committedCtxs isDist steps).map (fun c => c.scanCount)).sum := by
  intro steps
  induction steps with
  | nil =>
    intro res res' e h0 hrun herr
    exact absurd hrun (by simp [handleLoop])
  | cons step rest ih =>
    intro res res' e h0 hrun herr
    cases step with
    | runErr e0 =>
      have hres : { res with err := some e0 } = res' := by
        simpa [handleLoop] using hrun
      subst hres
      simp [committedCtxs, lastNextKey]
    | bfErr e0 =>
      have hres : { res with err := some e0 } = res' := by
        simpa [handleLoop] using hrun
      subst hres
      simp [committedCtxs, lastNextKey]
    | ok c leaseE =>
      by_cases hdone : c.done
      · have hres : mergeBackfillCtxToResult c res = res' := by
          simpa [handleLoop, hdone] using hrun
        subst hres
        simp [mergeBackfillCtxToResult, h0] at herr
      · cases hd : isDist with
        | true =>
          cases hl : leaseE with
          | some e1 =>
            subst hd; subst hl
            have hres : { mergeBackfillCtxToResult c res with err := some e1 } = res' := by
              simpa [handleLoop, hdone] using hrun
            subst hres
            simp [committedCtxs, hdone, lastNextKey, mergeBackfillCtxToResult]
          | none =>
            subst hd; subst hl
            have hrec : handleLoop true (mergeBackfillCtxToResult c res) rest = some res' := by
              simpa [handleLoop, hdone] using hrun
            obtain ⟨b1, b2, b3⟩ := ih (mergeBackfillCtxToResult c res) res' e
              (by simp [mergeBackfillCtxToResult, h0]) hrec herr
            have hcc : committedCtxs true (BatchStep.ok c none :: rest) =
                c :: committedCtxs true rest := by
              simp [committedCtxs, hdone]
            rw [hcc, lastNextKey_cons]
            refine ⟨?_, ?_, ?_⟩
            · simpa [mergeBackfillCtxToResult] using b1
            · rw [b2]
              simp [mergeBackfillCtxToResult]
              omega
            · rw [b3]
              simp [mergeBackfillCtxToResult]
              omega
        | false =>
          subst hd
          have hrec : handleLoop false (mergeBackfillCtxToResult c res) rest = some res' := by
            cases leaseE <;> simpa [handleLoop, hdone] using hrun
          obtain ⟨b1, b2, b3⟩ := ih (mergeBackfillCtxToResult c res) res' e
            (by simp [mergeBackfillCtxToResult, h0]) hrec herr
          have hcc : committedCtxs false (BatchStep.ok c leaseE :: rest) =
              c :: committedCtxs false rest := by
            cases leaseE <;> simp [committedCtxs, hdone]
          rw [hcc, lastNextKey_cons]
          refine ⟨?_, ?_, ?_⟩
          · simpa [mergeBackfillCtxToResult] using b1
          · rw [b2]
            simp [mergeBackfillCtxToResult]
            omega
          · rw [b3]
            simp [mergeBackfillCtxToResult]
            omega

/-- C10: when `handleBackfillTask` returns an errored result, its next
key is the next key of the last committed batch (the task's start key
when none committed), and its counts sum exactly the committed
batches. -/
theorem C10_handleBackfillTask_error (isDist : Bool) (taskID : Nat) (startKey : Key)
    (steps : List BatchStep) (res : backfillResult) (e : BFError)
    (hrun : handleBackfillTaskModel isDist taskID startKey steps = some res)
    (herr : res.err = some e) :
    res.nextKey = lastNextKey startKey (committedCtxs isDist steps) ∧
    res.addedCount = ((committedCtxs isDist steps).map (fun c => c.addedCount)).sum ∧
    res.scanCount = ((committedCtxs isDist steps).map (fun c => c.scanCount)).sum := by
  have := handleLoop_err_spec isDist steps
    { taskID := taskID, addedCount := 0, scanCount := 0, nextKey := startKey, err := none }
    res e rfl hrun herr
  simpa using this

/-- Witness for C10: one committed batch then a `BackfillData` failure. -/
theorem C10_handleBackfillTask_error_witness :
    handleBackfillTaskModel false 7 [1]
        [BatchStep.ok ⟨[5], false, 3, 4⟩ none, BatchStep.bfErr (BFError.generic 0)] =
      some ⟨7, 3, 4, [5], some (BFError.generic 0)⟩ ∧
    (⟨7, 3, 4, [5], some (BFError.generic 0)⟩ : backfillResult).nextKey =
      lastNextKey [1] (committedCtxs false
        [BatchStep.ok ⟨[5], false, 3, 4⟩ none, BatchStep.bfErr (BFError.generic 0)]) :=
  ⟨by decide,
   (C10_handleBackfillTask_error false 7 [1]
     [BatchStep.ok ⟨[5], false, 3, 4⟩ none, BatchStep.bfErr (BFError.generic 0)]
     ⟨7, 3, 4, [5], some (BFError.generic 0)⟩ (BFError.generic 0)
     (by decide) (by decide)).1⟩

/-! ### C7: `iterateSnapshotKeys` -/

/-- C7: the iteration starts at `startKey`, falling back to `keyPrefix`
when the start is empty, with exclusive upper bound
`endKey.PrefixNext()`, falling back to `keyPrefix.PrefixNext()` when the
end is empty — the two fallbacks are independent, so all four
empty/non-empty combinations are covered; the loop returns `nil` as
soon as the current key no longer has the prefix; and an `ErrNotExist`
from the advance is a clean end returning `nil`. -/
theorem C7_iterateSnapshotKeys (snap : Key → Key → List (Key × Key)) (pre : Key)
    (startKey endKey : Key) (isRecord : Bool) (dec : Key → Except BFError Nat)
    (fn : Option Nat → Key → Key → Bool × Option BFError)
    (adv : Key → List (Key × Key) → AdvanceOutcome) (fuel : Nat) :
    (startKey ≠ [] → endKey ≠ [] →
      iterateSnapshotKeysModel snap pre startKey endKey isRecord dec fn adv fuel =
        iterLoop pre isRecord dec fn adv fuel (snap startKey (prefixNext endKey))) ∧
    (startKey = [] → endKey ≠ [] →
      iterateSnapshotKeysModel snap pre startKey endKey isRecord dec fn adv fuel =
        iterLoop pre isRecord dec fn adv fuel (snap pre (prefixNext endKey))) ∧
    (startKey ≠ [] → endKey = [] →
      iterateSnapshotKeysModel snap pre startKey endKey isRecord dec fn adv fuel =
        iterLoop pre isRecord dec fn adv fuel (snap startKey (prefixNext pre))) ∧
    (startKey = [] → endKey = [] →
      iterateSnapshotKeysModel snap pre startKey endKey isRecord dec fn adv fuel =
        iterLoop pre isRecord dec fn adv fuel (snap pre (prefixNext pre))) ∧
    (∀ (key val : Key) (rest : List (Key × Key)),
      List.isPrefixOf pre key = false →
      iterLoop pre isRecord dec fn adv (fuel + 1) ((key, val) :: rest) =
        some (Except.ok ())) ∧
    (∀ (key val : Key) (rest : List (Key × Key)) (h : Option Nat),
      List.isPrefixOf pre key = true →
      decodeStep isRecord dec key = Except.ok h →
      fn h key val = (true, none) →
      adv key rest = AdvanceOutcome.err BFError.notExist →
      iterLoop pre isRecord dec fn adv (fuel + 1) ((key, val) :: rest) =
        some (Except.ok ())) := by
  refine ⟨?_, ?_, ?_, ?_, ?_, ?_⟩
  · intro hs he
    unfold iterateSnapshotKeysModel
    rw [if_neg hs, if_neg he]
  · intro hs he
    unfold iterateSnapshotKeysModel
    rw [if_pos hs, if_neg he]
  · intro hs he
    unfold iterateSnapshotKeysModel
    rw [if_neg hs, if_pos he]
  · intro hs he
    unfold iterateSnapshotKeysModel
    rw [if_pos hs, if_pos he]
  · intro key val rest hpre
    simp [iterLoop, hpre]
  · intro key val rest h hpre hdec hfn hadv
    simp [iterLoop, hpre, hdec, hfn, hadv]

/-- Witness for C7: the mixed empty-start/non-empty-end window falls
back to the prefix on the left only, and a one-entry snapshot whose
advance reports `ErrNotExist` ends the iteration cleanly. -/
theorem C7_iterateSnapshotKeys_witness :
    (([] : Key) = [] ∧ ([9] : Key) ≠ []) ∧
    iterateSnapshotKeysModel (fun a b => [(a, b)]) [1] [] [9] true
        (fun _ => Except.ok 0) (fun _ _ _ => (true, none))
        (fun _ _ => AdvanceOutcome.err BFError.notExist) 5 =
      iterLoop [1] true (fun _ => Except.ok 0) (fun _ _ _ => (true, none))
        (fun _ _ => AdvanceOutcome.err BFError.notExist) 5
        ((fun a b => [(a, b)]) [1] (prefixNext [9])) ∧
    List.isPrefixOf ([1] : Key) [1, 2] = true ∧
    iterLoop [1] true (fun _ => Except.ok 0) (fun _ _ _ => (true, none))
        (fun _ _ => AdvanceOutcome.err BFError.notExist) 5 [([1, 2], [])] =
      some (Except.ok ()) :=
  ⟨⟨rfl, by decide⟩,
   (C7_iterateSnapshotKeys (fun a b => [(a, b)]) [1] [] [9] true
       (fun _ => Except.ok 0) (fun _ _ _ => (true, none))
       (fun _ _ => AdvanceOutcome.err BFError.notExist) 5).2.1 rfl (by decide),
   by decide,
   (C7_iterateSnapshotKeys (fun a b => [(a, b)]) [1] [1] [9] true
       (fun _ => Except.ok 0) (fun _ _ _ => (true, none))
       (fun _ _ => AdvanceOutcome.err BFError.notExist) 4).2.2.2.2.2
     [1, 2] [] [] (some 0) rfl rfl rfl rfl⟩

/-! ### C8: `getRangeEndKey` -/

lemma keyLe_keyMax_left (a x : Key) : keyLe a (keyMax a x) := by
  unfold keyMax
  by_cases hc : keyCmp a x = Ordering.lt
  · rw [if_pos hc]
    simp [keyLe, hc]
  · rw [if_neg hc]
    exact keyLe_refl a

lemma keyLe_keyMax_right (a x : Key) : keyLe x (keyMax a x) := by
  unfold keyMax
  by_cases hc : keyCmp a x = Ordering.lt
  · rw [if_pos hc]
    exact keyLe_refl x
  · rw [if_neg hc]
    unfold keyLe
    rw [keyCmp_swap a x]
    cases h : keyCmp a x with
    | lt => exact absurd h hc
    | eq => decide
    | gt => decide

/-- The max-fold over a nonempty seed returns the maximum of the seed
and the list. -/
lemma foldMax_spec :
    ∀ (l : List Key) (a : Key),
      ∃ r, l.foldl maxStep (some a) = some r ∧
        (r = a ∨ r ∈ l) ∧ keyLe a r ∧ ∀ x ∈ l, keyLe x r := by
  intro l
  induction l with
  | nil => intro a; exact ⟨a, rfl, Or.inl rfl, keyLe_refl a, by simp⟩
  | cons x xs ih =>
    intro a
    obtain ⟨r, hfold, hmem, hle, hall⟩ := ih (keyMax a x)
    refine ⟨r, hfold, ?_, ?_, ?_⟩
    · rcases hmem with h | h
      · unfold keyMax at h
        by_cases hc : keyCmp a x = Ordering.lt
        · rw [if_pos hc] at h
          exact Or.inr (by simp [h])
        · rw [if_neg hc] at h
          exact Or.inl h
      · exact Or.inr (List.mem_cons_of_mem _ h)
    · exact keyLe_trans (keyLe_keyMax_left a x) hle
    · intro y hy
      rcases List.mem_cons.mp hy with h | h
      · subst h
        exact keyLe_trans (keyLe_keyMax_right a y) hle
      · exact hall y h

lemma maxBelow_some_spec (snap : List Key) (ub m : Key)
    (h : maxBelow snap ub = some m) :
    m ∈ snap ∧ keyCmp m ub = Ordering.lt ∧
    ∀ x ∈ snap, keyCmp x ub = Ordering.lt → keyLe x m := by
  unfold maxBelow at h
  cases hf : snap.filter (fun x => keyCmp x ub = Ordering.lt) with
  | nil =>
    rw [hf] at h
    simp at h
  | cons a xs =>
    rw [hf] at h
    obtain ⟨r, hfold, hmem, hle, hall⟩ := foldMax_spec xs a
    have h' : xs.foldl maxStep (some a) = some m := h
    rw [hfold] at h'
    have hrm : r = m := Option.some.inj h'
    rw [hrm] at hmem hle hall
    have hmemf : m ∈ snap.filter (fun x => keyCmp x ub = Ordering.lt) := by
      rw [hf]
      rcases hmem with hh | hh
      · simp [hh]
      · exact List.mem_cons_of_mem _ hh
    obtain ⟨hmsnap, hmlt⟩ := List.mem_filter.mp hmemf
    refine ⟨hmsnap, by simpa using hmlt, ?_⟩
    intro x hx hxlt
    have hxf : x ∈ snap.filter (fun x => keyCmp x ub = Ordering.lt) :=
      List.mem_filter.mpr ⟨hx, by simpa using hxlt⟩
    rw [hf] at hxf
    rcases List.mem_cons.mp hxf with hh | hh
    · subst hh
      exact hle
    · exact hall x hh

lemma maxBelow_none_spec (snap : List Key) (ub : Key)
    (h : maxBelow snap ub = none) :
    ∀ x ∈ snap, keyCmp x ub ≠ Ordering.lt := by
  intro x hx hlt
  unfold maxBelow at h
  cases hf : snap.filter (fun x => keyCmp x ub = Ordering.lt) with
  | nil =>
    have hxf : x ∈ snap.filter (fun x => keyCmp x ub = Ordering.lt) :=
      List.mem_filter.mpr ⟨hx, by simpa using hlt⟩
    rw [hf] at hxf
    simp at hxf
  | cons a xs =>
    rw [hf] at h
    obtain ⟨r, hfold, _, _, _⟩ := foldMax_spec xs a
    have h' : xs.foldl maxStep (some a) = none := h
    rw [hfold] at h'
    exact Option.noConfusion h'

/-- C8 counterexample: in the snapshot with keys `[0,2]` and `[5]`, with
prefix `[0]`, start `[0,1]` and declared end `[9]`, the key `[0,2]` is
the largest existing key at most the end key that carries the prefix and
is at least the start key — yet `getRangeEndKey` returns the start key
`[0,1]`, which is neither `[0,2]` (the claim's positive case) nor the
end key `[9]` (the claim's fallback). -/
theorem C8_counterexample :
    (([0, 2] : Key) ∈ ([[0, 2], [5]] : List Key)) ∧
    keyLe [0, 2] [9] ∧
    List.isPrefixOf [0] ([0, 2] : Key) = true ∧
    keyLe [0, 1] [0, 2] ∧
    (∀ x ∈ ([[0, 2], [5]] : List Key),
      List.isPrefixOf [0] x = true → keyLe x [9] → keyLe x [0, 2]) ∧
    getRangeEndKeyModel [[0, 2], [5]] [0] [0, 1] [9] = [0, 1] ∧
    ([0, 1] : Key) ≠ [0, 2] ∧ ([0, 1] : Key) ≠ [9] := by
  decide

/-- C8 amended: `getRangeEndKey` inspects only the largest existing key
at most `endKey`: it returns that key when it carries `keyPrefix` and is
at least `startKey`, and returns `startKey` otherwise — also when no key
at most `endKey` exists at all (the fallback is the start key, not the
declared end). -/
theorem C8_getRangeEndKey (snap : List Key) (pre startKey endKey : Key) :
    (∀ m, m ∈ snap → keyLe m endKey →
      (∀ x ∈ snap, keyLe x endKey → keyLe x m) →
      getRangeEndKeyModel snap pre startKey endKey =
        if List.isPrefixOf pre m = true ∧ keyCmp m startKey ≠ Ordering.lt
        then m else startKey) ∧
    ((∀ x ∈ snap, ¬ keyLe x endKey) →
      getRangeEndKeyModel snap pre startKey endKey = startKey) := by
  constructor
  · intro m hmem hle hmax
    have hlt : keyCmp m (keyNext endKey) = Ordering.lt :=
      (keyCmp_lt_next_iff m endKey).mpr hle
    cases hmb : maxBelow snap (keyNext endKey) with
    | none => exact absurd hlt (maxBelow_none_spec snap _ hmb m hmem)
    | some m' =>
      obtain ⟨hm'mem, hm'lt, hm'max⟩ := maxBelow_some_spec snap _ m' hmb
      have h1 : keyLe m m' := hm'max m hmem hlt
      have h2 : keyLe m' m := hmax m' hm'mem ((keyCmp_lt_next_iff m' endKey).mp hm'lt)
      have hmm : m' = m := keyLe_antisymm h2 h1
      subst hmm
      have hgoal : getRangeEndKeyModel snap pre startKey endKey =
          (if List.isPrefixOf pre m' = false then startKey
           else if keyCmp m' startKey = Ordering.lt then startKey else m') := by
        unfold getRangeEndKeyModel
        rw [hmb]
      rw [hgoal]
      by_cases hp : List.isPrefixOf pre m' = true
      · rw [if_neg (by simp [hp])]
        by_cases hs : keyCmp m' startKey = Ordering.lt
        · rw [if_pos hs, if_neg (by tauto)]
        · rw [if_neg hs, if_pos ⟨hp, hs⟩]
      · have hp' : List.isPrefixOf pre m' = false := by
          revert hp
          cases List.isPrefixOf pre m' <;> simp
        rw [if_pos hp', if_neg (by tauto)]
  · intro hnone
    cases hmb : maxBelow snap (keyNext endKey) with
    | none =>
      unfold getRangeEndKeyModel
      rw [hmb]
    | some m' =>
      obtain ⟨hm'mem, hm'lt, _⟩ := maxBelow_some_spec snap _ m' hmb
      exact absurd ((keyCmp_lt_next_iff m' endKey).mp hm'lt) (hnone m' hm'mem)

/-- Witness for the amended C8 on the counterexample snapshot: the
largest key at most the end key is `[5]`, which lacks the prefix, so the
start key is returned. -/
theorem C8_getRangeEndKey_witness :
    (([5] : Key) ∈ ([[0, 2], [5]] : List Key)) ∧
    getRangeEndKeyModel [[0, 2], [5]] [0] [0, 1] [9] =
      (if List.isPrefixOf ([0] : Key) [5] = true ∧ keyCmp [5] [0, 1] ≠ Ordering.lt
       then ([5] : Key) else [0, 1]) :=
  ⟨by decide,
   (C8_getRangeEndKey [[0, 2], [5]] [0] [0, 1] [9]).1 [5] (by decide) (by decide)
     (by decide)⟩

end Backfill
